import Mathlib

set_option maxRecDepth 1000000

/-!
# Verification of the `bloom` Bloom-filter library (`src/src/lib.rs`)

Shallow embedding of the Rust source.

* The bit array (`bit_vec::BitVec`) is a `List Bool`; `BitVec::get` returns an
  `Option`, `BitVec::set` asserts that the index is in bounds, and
  `BitVec::from_elem n false` stores `⌈n/32⌉` `u32` blocks, so `capacity()`
  returns `⌈n/32⌉ * 32` bits (`vec![block; nblocks]` allocates exactly
  `nblocks` blocks).
* Fallible operations (Rust panics: index out of bounds, `%` by zero,
  `Option::unwrap` of `None`) are modelled with `Option`, `none` = panic.
* `f32` is modelled exactly: every finite IEEE-754 binary32 value is an
  integer multiple of `2^-149` (the subnormal quantum), so a finite value is
  an integer `m` denoting `m * 2^-149`, with `|m| < 2^277` (`2^277 * 2^-149 =
  2^128`, the overflow threshold).  Arithmetic (`*`, `/`, `-`, casts, `ceil`)
  is IEEE-exact: compute the exact rational result and round to nearest,
  ties to even.  The two zeroes are identified (no operation verified here
  distinguishes them: `exp(+0) = exp(-0) = 1`, `ceil(±0) = ±0`, and
  `(±0 : f32) as usize = 0`).  The transcendental calls (`exp`, `ln`,
  `powf`) go to the platform libm, whose results are implementation-defined
  except at the special points pinned by IEEE-754 / C99 Annex F; they are
  therefore taken as parameters, and theorems assume only the pinned values.
* `Rust as usize` casts are saturating (`NaN → 0`), per Rust's defined
  float-to-int conversion semantics.
* A hash function (`RandomState` instance) is modelled by its digest
  function `α → ℕ`: `build_hasher()` starts from the instance's fixed seed,
  so the digest of an element is a pure function of the element.  Digests
  are allowed to be arbitrary naturals (a 64-bit digest is the special case
  `< 2^64`), which only widens the quantification of the theorems.
-/

namespace Bloom

/-! ## The binary32 model -/

/-- An IEEE-754 binary32 value: `finite m` denotes `m * 2^-149`.  The two
zeroes are identified (see the header comment). -/
inductive F32 where
  | finite : ℤ → F32
  | inf : F32
  | neginf : F32
  | nan : F32
deriving DecidableEq

/-- Round the integer fraction `a / b` (with `b > 0`) to the nearest
integer, ties to even. -/
def rneaN (a b : ℕ) : ℕ :=
  if 2 * (a % b) < b then a / b
  else if b < 2 * (a % b) then a / b + 1
  else if (a / b) % 2 = 0 then a / b else a / b + 1

/-- Find the quantum of the binary32 grid at magnitude `N / D` (in `2^-149`
units): starting from `t = 2^23 * D` and `s = 0`, double `t` while
`t * 2 ≤ N`; the result `(s, t)` satisfies `t = 2^23 * D * 2^s` and, when
the fuel suffices, `t ≤ N < 2 * t`, i.e. the value lies in the binade with
quantum `2^s` (in `2^-149` units).  Fuel 600 is ample: every value produced
by the embedded code is below `2^554` in these units. -/
def quantExp : ℕ → ℕ → ℕ → ℕ → ℕ × ℕ
  | 0, _, t, s => (s, t)
  | f + 1, N, t, s => if t * 2 ≤ N then quantExp f N (t * 2) (s + 1) else (s, t)

/-- Round the positive value `N / D` (in `2^-149` units, `N, D > 0`) onto
the binary32 grid: `some m` is the resulting magnitude in `2^-149` units,
`none` is overflow to infinity. -/
def roundPos (N D : ℕ) : Option ℕ :=
  if N < 2 ^ 23 * D then some (rneaN N D)
  else if rneaN (N * 2 ^ 23) (quantExp 600 N (2 ^ 23 * D) 0).2
        * 2 ^ (quantExp 600 N (2 ^ 23 * D) 0).1 < 2 ^ 277 then
    some (rneaN (N * 2 ^ 23) (quantExp 600 N (2 ^ 23 * D) 0).2
      * 2 ^ (quantExp 600 N (2 ^ 23 * D) 0).1)
  else none

/-- Round the exact rational value `num / den` (in `2^-149` units,
`den ≠ 0`) to binary32, nearest-even. -/
def roundQ (num den : ℤ) : F32 :=
  if num = 0 then F32.finite 0
  else if (0 < num ∧ 0 < den) ∨ (num < 0 ∧ den < 0) then
    match roundPos num.natAbs den.natAbs with
    | some m => F32.finite (m : ℤ)
    | none => F32.inf
  else
    match roundPos num.natAbs den.natAbs with
    | some m => F32.finite (-(m : ℤ))
    | none => F32.neginf

/-- binary32 negation. -/
def fNeg : F32 → F32
  | F32.finite a => F32.finite (-a)
  | F32.inf => F32.neginf
  | F32.neginf => F32.inf
  | F32.nan => F32.nan

/-- binary32 multiplication (IEEE-754: exact product, rounded). -/
def fMul : F32 → F32 → F32
  | F32.nan, _ => F32.nan
  | _, F32.nan => F32.nan
  | F32.inf, F32.inf => F32.inf
  | F32.inf, F32.neginf => F32.neginf
  | F32.neginf, F32.inf => F32.neginf
  | F32.neginf, F32.neginf => F32.inf
  | F32.inf, F32.finite b => if b = 0 then F32.nan else if 0 < b then F32.inf else F32.neginf
  | F32.neginf, F32.finite b => if b = 0 then F32.nan else if 0 < b then F32.neginf else F32.inf
  | F32.finite a, F32.inf => if a = 0 then F32.nan else if 0 < a then F32.inf else F32.neginf
  | F32.finite a, F32.neginf => if a = 0 then F32.nan else if 0 < a then F32.neginf else F32.inf
  | F32.finite a, F32.finite b => roundQ (a * b) (2 ^ 149)

/-- binary32 division (IEEE-754: exact quotient, rounded; `0/0 = NaN`,
`x/0 = ±∞` for `x ≠ 0`). -/
def fDiv : F32 → F32 → F32
  | F32.nan, _ => F32.nan
  | _, F32.nan => F32.nan
  | F32.inf, F32.inf => F32.nan
  | F32.inf, F32.neginf => F32.nan
  | F32.neginf, F32.inf => F32.nan
  | F32.neginf, F32.neginf => F32.nan
  | F32.inf, F32.finite b => if 0 ≤ b then F32.inf else F32.neginf
  | F32.neginf, F32.finite b => if 0 ≤ b then F32.neginf else F32.inf
  | F32.finite _, F32.inf => F32.finite 0
  | F32.finite _, F32.neginf => F32.finite 0
  | F32.finite a, F32.finite b =>
    if b = 0 then (if a = 0 then F32.nan else if 0 < a then F32.inf else F32.neginf)
    else roundQ (a * 2 ^ 149) b

/-- binary32 subtraction (IEEE-754: exact difference, rounded). -/
def fSub : F32 → F32 → F32
  | F32.nan, _ => F32.nan
  | _, F32.nan => F32.nan
  | F32.inf, F32.inf => F32.nan
  | F32.inf, F32.neginf => F32.inf
  | F32.inf, F32.finite _ => F32.inf
  | F32.neginf, F32.inf => F32.neginf
  | F32.neginf, F32.neginf => F32.nan
  | F32.neginf, F32.finite _ => F32.neginf
  | F32.finite _, F32.inf => F32.neginf
  | F32.finite _, F32.neginf => F32.inf
  | F32.finite a, F32.finite b => roundQ (a - b) 1

/-- `f32::ceil`.  A finite ceiling never overflows (values of magnitude
`≥ 2^24` are already integers), so no rounding is needed. -/
def fCeil : F32 → F32
  | F32.finite a => F32.finite (-(Int.fdiv (-a) (2 ^ 149)) * 2 ^ 149)
  | x => x

/-- `f32::trunc` semantics (toward zero), used only by the spec-side
truncation variant of the hash-count formula. -/
def fTruncF : F32 → F32
  | F32.finite a => F32.finite (Int.sign a * ((a.natAbs / 2 ^ 149 : ℕ) : ℤ) * 2 ^ 149)
  | x => x

/-- Rust `usize as f32`: exact value, rounded to nearest binary32. -/
def usizeToF32 (n : ℕ) : F32 := roundQ ((n : ℤ) * 2 ^ 149) 1

/-- Rust `f32 as usize`: saturating cast, truncation toward zero,
`NaN → 0`, negative → `0`, `+∞`/large → `usize::MAX`. -/
def f32ToUsize : F32 → ℕ
  | F32.nan => 0
  | F32.neginf => 0
  | F32.inf => 2 ^ 64 - 1
  | F32.finite a => if a ≤ 0 then 0 else min (a.natAbs / 2 ^ 149) (2 ^ 64 - 1)

/-- `2f32.ln()`: the binary32 value nearest `ln 2` is
`11629080 * 2^-24 = 0.69314718…`; every mainstream libm returns this
correctly rounded result.  In `2^-149` units: `11629080 * 2^125`. -/
def ln2F32 : F32 := F32.finite (11629080 * 2 ^ 125)

/-! ## The `bit_vec::BitVec` model -/

/-- `BitVec::get`: `None` when the index is out of bounds. -/
def bitGet (buf : List Bool) (i : ℕ) : Option Bool := buf[i]?

/-- `BitVec::set`: panics (here `none`) when the index is out of bounds. -/
def bitSet (buf : List Bool) (i : ℕ) (b : Bool) : Option (List Bool) :=
  if i < buf.length then some (buf.set i b) else none

/-- `BitVec::capacity` of a bit vector built by `from_elem len false`:
the storage holds `⌈len/32⌉` `u32` blocks, so the capacity in bits is
`⌈len/32⌉ * 32`. -/
def bitVecCapacity (len : ℕ) : ℕ := ((len + 31) / 32) * 32

/-! ## Sizing functions (`false_positive_rate`, `min_n_buckets`,
`optimal_n_hashers` from `src/src/lib.rs`) -/

/-- `false_positive_rate(n_buckets, n_hashers, n_elems) =
(1. - ((-k * n) / m).exp()).powf(k)`.  `fexp`/`fpowf` are the platform
libm `expf`/`powf` (parameters, see the header comment);
`1.0 = 2^149 * 2^-149`. -/
def false_positive_rate (fexp : F32 → F32) (fpowf : F32 → F32 → F32)
    (n_buckets n_hashers n_elems : ℕ) : F32 :=
  fpowf (fSub (F32.finite (2 ^ 149))
      (fexp (fDiv (fMul (fNeg (usizeToF32 n_hashers)) (usizeToF32 n_elems))
        (usizeToF32 n_buckets))))
    (usizeToF32 n_hashers)

/-- `min_n_buckets(n_elems, fp_rate) =
(-1. * n * fp_rate.ln() / (2f32.ln().powf(2.))).ceil() as usize`.
`fln` is the libm `logf` (parameter); `-1.0 = -(2^149)`, `2.0 = 2^150`. -/
def min_n_buckets (fln : F32 → F32) (fpowf : F32 → F32 → F32)
    (n_elems : ℕ) (fp : F32) : ℕ :=
  f32ToUsize (fCeil (fDiv (fMul (fMul (F32.finite (-(2 ^ 149))) (usizeToF32 n_elems)) (fln fp))
    (fpowf ln2F32 (F32.finite (2 ^ 150)))))

/-- `optimal_n_hashers(n_buckets, n_elems) = ((m / n) * 2f32.ln()).ceil() as usize`. -/
def optimal_n_hashers (n_buckets n_elems : ℕ) : ℕ :=
  f32ToUsize (fCeil (fMul (fDiv (usizeToF32 n_buckets) (usizeToF32 n_elems)) ln2F32))

/-! ## The `BloomFilter` struct and its operations -/

/-- `pub struct BloomFilter { buffer: BitVec, size: usize, hashers: Vec<RandomState> }`.
A hasher is modelled by its digest function (see the header comment). -/
structure BloomFilter (α : Type) where
  buffer : List Bool
  size : ℕ
  hashers : List (α → ℕ)

/-- The loop body of `indexes`: for each digest `d`, push
`d % buffer.len()`; `%` by zero panics (`none`). -/
def indexesAux (len : ℕ) : List ℕ → Option (List ℕ)
  | [] => some []
  | d :: rest =>
    if len = 0 then none
    else
      match indexesAux len rest with
      | none => none
      | some l => some (d % len :: l)

/-- `fn indexes<T: Hash>(&self, e: &T) -> Vec<usize>`: one position per
hasher, in hasher order: `hasher.finish() as usize % self.buffer.len()`. -/
def indexes {α : Type} (F : BloomFilter α) (e : α) : Option (List ℕ) :=
  indexesAux F.buffer.length (F.hashers.map fun h => h e)

/-- The loop of `add`: `self.buffer.set(idx, true)` for each index. -/
def setAll (buf : List Bool) : List ℕ → Option (List Bool)
  | [] => some buf
  | i :: rest =>
    match bitSet buf i true with
    | none => none
    | some b => setAll b rest

/-- The loop of `may_contain`: `may_contain &= self.buffer.get(idx).unwrap()`
(no short-circuit; `unwrap` of `None` panics). -/
def readAll (buf : List Bool) (acc : Bool) : List ℕ → Option Bool
  | [] => some acc
  | i :: rest =>
    match bitGet buf i with
    | none => none
    | some b => readAll buf (acc && b) rest

/-- `pub fn add<T: Hash>(&mut self, e: &T)`: set every index, then
`self.size += 1`. -/
def add {α : Type} (F : BloomFilter α) (e : α) : Option (BloomFilter α) :=
  match indexes F e with
  | none => none
  | some idxs =>
    match setAll F.buffer idxs with
    | none => none
    | some buf => some { buffer := buf, size := F.size + 1, hashers := F.hashers }

/-- `pub fn may_contain<T: Hash>(&self, e: &T) -> bool`. -/
def may_contain {α : Type} (F : BloomFilter α) (e : α) : Option Bool :=
  match indexes F e with
  | none => none
  | some idxs => readAll F.buffer true idxs

/-- `pub fn buckets(&self) -> usize { self.buffer.capacity() }` — note:
the *capacity*, not the length. -/
def buckets {α : Type} (F : BloomFilter α) : ℕ := bitVecCapacity F.buffer.length

/-- `pub fn n_hashers(&self) -> usize { self.hashers.len() }`. -/
def n_hashers {α : Type} (F : BloomFilter α) : ℕ := F.hashers.length

/-- `pub fn fp_rate(&self) -> f32 { false_positive_rate(self.buckets(), self.n_hashers(), self.size()) }`. -/
def fp_rate (fexp : F32 → F32) (fpowf : F32 → F32 → F32) {α : Type}
    (F : BloomFilter α) : F32 :=
  false_positive_rate fexp fpowf (buckets F) (n_hashers F) F.size

/-- `pub fn new_with_size(n_elems: usize, size: usize) -> BloomFilter`:
the struct construction, with every heap allocation modelled as
succeeding.  `mk i` is the digest function of the `i`-th freshly drawn
`RandomState` (seed-source dependency made explicit).  The deterministic
allocation-failure path of the real constructor — the hasher `collect`
panics with "capacity overflow" when the requested byte size exceeds
`isize::MAX` — is restored by `new_with_size_checked` below. -/
def new_with_size {α : Type} (n_elems size : ℕ) (mk : ℕ → α → ℕ) : BloomFilter α :=
  { size := 0
    buffer := List.replicate size false
    hashers := (List.range (optimal_n_hashers size n_elems)).map mk }

/-- `pub fn new_with_fp(n_elems: usize, fp_rate: f32) -> BloomFilter`:
the struct construction, with every heap allocation modelled as
succeeding; `new_with_fp_checked` below restores the deterministic
panic path. -/
def new_with_fp {α : Type} (fln : F32 → F32) (fpowf : F32 → F32 → F32)
    (n_elems : ℕ) (fp : F32) (mk : ℕ → α → ℕ) : BloomFilter α :=
  { size := 0
    buffer := List.replicate (min_n_buckets fln fpowf n_elems fp) false
    hashers :=
      (List.range (optimal_n_hashers (min_n_buckets fln fpowf n_elems fp) n_elems)).map mk }

/-- `new_with_size` including its deterministic failure: collecting
`(0..n_hashers).map(|_| RandomState::new())` into a `Vec` first reserves
`n_hashers * size_of::<RandomState>() = n_hashers * 16` bytes (the range
reports an exact size hint), and `Vec` is guaranteed to panic with
"capacity overflow" when that exceeds `isize::MAX = 2^63 - 1`; `none` =
panic.  The bit-array allocation needs at most `⌈(2^64-1)/32⌉ * 4 < 2^62`
bytes for any `usize` length, so it can never hit this deterministic
panic.  Environmental out-of-memory aborts below the threshold are outside
the model, as for every other heap allocation here. -/
def new_with_size_checked {α : Type} (n_elems size : ℕ) (mk : ℕ → α → ℕ) :
    Option (BloomFilter α) :=
  if optimal_n_hashers size n_elems * 16 ≤ 2 ^ 63 - 1 then
    some (new_with_size n_elems size mk)
  else none

/-- `new_with_fp` including the same deterministic hasher-allocation
failure as `new_with_size_checked`. -/
def new_with_fp_checked {α : Type} (fln : F32 → F32) (fpowf : F32 → F32 → F32)
    (n_elems : ℕ) (fp : F32) (mk : ℕ → α → ℕ) : Option (BloomFilter α) :=
  if optimal_n_hashers (min_n_buckets fln fpowf n_elems fp) n_elems * 16 ≤ 2 ^ 63 - 1 then
    some (new_with_fp fln fpowf n_elems fp mk)
  else none

/-! ## Traces of operations on one filter -/

/-- A single API call on a filter. -/
inductive Op (α : Type) where
  | ins : α → Op α
  | query : α → Op α

/-- Run one call: `add` mutates through `&mut self`; `may_contain` takes
`&self`, so the filter is returned unchanged (its result is discarded by
the trace, but its panic is not). -/
def runOp {α : Type} (F : BloomFilter α) : Op α → Option (BloomFilter α)
  | Op.ins e => add F e
  | Op.query e =>
    match may_contain F e with
    | none => none
    | some _ => some F

/-- Run a sequence of calls. -/
def runOps {α : Type} (F : BloomFilter α) : List (Op α) → Option (BloomFilter α)
  | [] => some F
  | op :: rest =>
    match runOp F op with
    | none => none
    | some F2 => runOps F2 rest

/-- Insert each element of a list in order. -/
def addAll {α : Type} (F : BloomFilter α) : List α → Option (BloomFilter α)
  | [] => some F
  | e :: rest =>
    match add F e with
    | none => none
    | some F2 => addAll F2 rest

/-! ## Spec-side definition (refinement comparison for C3) -/

/-- Follows the spec's words, not the source: the hash count obtained by
*truncating* `(m / n) * ln 2` (the policy the spec ascribes to the
fixed-size constructor), to be compared with `optimal_n_hashers`, which
takes the ceiling. -/
def specTruncHashCount (n_buckets n_elems : ℕ) : ℕ :=
  f32ToUsize (fTruncF (fMul (fDiv (usizeToF32 n_buckets) (usizeToF32 n_elems)) ln2F32))

/-! ## Specimen libm functions

Concrete instantiations of the libm parameters, used by witnesses and
counterexamples.  They return the values that IEEE-754 / C99 Annex F pin
(`exp(±0) = 1`, `exp(NaN) = NaN`, `exp(±∞)`, `pow(x, ±0) = 1` for every
`x` including NaN, `pow(+0, y) = +0` for `y > 0`); at every other point —
where a real libm's result is implementation-defined, and which no theorem
in this file ever evaluates — they return NaN. -/

/-- A libm `expf` conforming to the C99-pinned special values. -/
def expSpecimen : F32 → F32
  | F32.nan => F32.nan
  | F32.inf => F32.inf
  | F32.neginf => F32.finite 0
  | F32.finite q => if q = 0 then F32.finite (2 ^ 149) else F32.nan

/-- A libm `powf` conforming to the C99-pinned special values. -/
def powfSpecimen : F32 → F32 → F32
  | x, F32.finite e =>
    if e = 0 then F32.finite (2 ^ 149)
    else
      match x with
      | F32.finite b =>
        if b = 0 then (if 0 < e then F32.finite 0 else F32.inf) else F32.nan
      | _ => F32.nan
  | _, _ => F32.nan

/-! ## Numeric lemmas about the binary32 model -/

/-- The quantum search only doubles the tracked threshold:
`quantExp f N t s = (s + j, t * 2^j)` for some `j`. -/
theorem quantExp_shape (f : ℕ) : ∀ N t s : ℕ, ∃ j : ℕ,
    quantExp f N t s = (s + j, t * 2 ^ j) := by
  induction f with
  | zero => exact fun N t s => ⟨0, by simp [quantExp]⟩
  | succ f ih =>
    intro N t s
    by_cases h : t * 2 ≤ N
    · obtain ⟨j, hj⟩ := ih N (t * 2) (s + 1)
      refine ⟨j + 1, ?_⟩
      simp only [quantExp, if_pos h, hj, Prod.mk.injEq]
      constructor
      · omega
      · ring
    · exact ⟨0, by simp [quantExp, h]⟩

/-- The threshold stays at most `N` when it starts at most `N`. -/
theorem quantExp_snd_le (f : ℕ) : ∀ N t s : ℕ, t ≤ N → (quantExp f N t s).2 ≤ N := by
  induction f with
  | zero => intro N t s h; simpa [quantExp] using h
  | succ f ih =>
    intro N t s h
    by_cases h2 : t * 2 ≤ N
    · simpa [quantExp, h2] using ih N (t * 2) (s + 1) h2
    · simpa [quantExp, h2] using h

/-- Round-to-nearest-even is at least the floor. -/
theorem rneaN_ge (a b : ℕ) : a / b ≤ rneaN a b := by
  simp only [rneaN]
  repeat' split
  all_goals omega

/-- Round-to-nearest-even is at most the floor plus one. -/
theorem rneaN_le (a b : ℕ) : rneaN a b ≤ a / b + 1 := by
  simp only [rneaN]
  repeat' split
  all_goals omega

/-- Rounding a positive value in the normal range (and well below the
overflow threshold) yields a positive finite magnitude. -/
theorem roundPos_pos (N D : ℕ) (hD : 0 < D) (h1 : 2 ^ 23 * D ≤ N)
    (h2 : N ≤ D * 2 ^ 275) : ∃ m : ℕ, roundPos N D = some m ∧ 0 < m := by
  obtain ⟨j, hj⟩ := quantExp_shape 600 N (2 ^ 23 * D) 0
  have hle : (quantExp 600 N (2 ^ 23 * D) 0).2 ≤ N := quantExp_snd_le 600 N _ 0 h1
  have hfst : (quantExp 600 N (2 ^ 23 * D) 0).1 = j := by rw [hj]; omega
  have hsnd : (quantExp 600 N (2 ^ 23 * D) 0).2 = 2 ^ 23 * D * 2 ^ j := by rw [hj]
  rw [hsnd] at hle
  have htpos : 0 < 2 ^ 23 * D * 2 ^ j := by positivity
  have hm1 : 2 ^ 23 ≤ rneaN (N * 2 ^ 23) (2 ^ 23 * D * 2 ^ j) := by
    refine le_trans ?_ (rneaN_ge _ _)
    rw [Nat.le_div_iff_mul_le htpos]
    calc 2 ^ 23 * (2 ^ 23 * D * 2 ^ j) ≤ 2 ^ 23 * N := by
          exact Nat.mul_le_mul_left _ hle
      _ = N * 2 ^ 23 := by ring
  have hmt : rneaN (N * 2 ^ 23) (2 ^ 23 * D * 2 ^ j) * (2 ^ 23 * D * 2 ^ j)
      ≤ N * 2 ^ 23 + 2 ^ 23 * D * 2 ^ j := by
    calc rneaN (N * 2 ^ 23) (2 ^ 23 * D * 2 ^ j) * (2 ^ 23 * D * 2 ^ j)
        ≤ (N * 2 ^ 23 / (2 ^ 23 * D * 2 ^ j) + 1) * (2 ^ 23 * D * 2 ^ j) :=
          Nat.mul_le_mul_right _ (rneaN_le _ _)
      _ = (N * 2 ^ 23 / (2 ^ 23 * D * 2 ^ j)) * (2 ^ 23 * D * 2 ^ j)
            + 2 ^ 23 * D * 2 ^ j := by ring
      _ ≤ N * 2 ^ 23 + 2 ^ 23 * D * 2 ^ j :=
          Nat.add_le_add_right (Nat.div_mul_le_self _ _) _
  have hDj : D * 2 ^ j ≤ N := by
    calc D * 2 ^ j ≤ 2 ^ 23 * D * 2 ^ j := by nlinarith [Nat.one_le_two_pow (n := 23)]
      _ ≤ N := hle
  have hub : rneaN (N * 2 ^ 23) (2 ^ 23 * D * 2 ^ j) * 2 ^ j < 2 ^ 277 := by
    have step1 : rneaN (N * 2 ^ 23) (2 ^ 23 * D * 2 ^ j) * (D * 2 ^ j) ≤ N + D * 2 ^ j := by
      have : 2 ^ 23 * (rneaN (N * 2 ^ 23) (2 ^ 23 * D * 2 ^ j) * (D * 2 ^ j))
          ≤ 2 ^ 23 * (N + D * 2 ^ j) := by
        calc 2 ^ 23 * (rneaN (N * 2 ^ 23) (2 ^ 23 * D * 2 ^ j) * (D * 2 ^ j))
            = rneaN (N * 2 ^ 23) (2 ^ 23 * D * 2 ^ j) * (2 ^ 23 * D * 2 ^ j) := by ring
          _ ≤ N * 2 ^ 23 + 2 ^ 23 * D * 2 ^ j := hmt
          _ = 2 ^ 23 * (N + D * 2 ^ j) := by ring
      exact Nat.le_of_mul_le_mul_left this (by positivity)
    have step2 : rneaN (N * 2 ^ 23) (2 ^ 23 * D * 2 ^ j) * (D * 2 ^ j) ≤ D * 2 ^ 276 := by
      calc rneaN (N * 2 ^ 23) (2 ^ 23 * D * 2 ^ j) * (D * 2 ^ j) ≤ N + D * 2 ^ j := step1
        _ ≤ N + N := Nat.add_le_add_left hDj _
        _ ≤ D * 2 ^ 275 + D * 2 ^ 275 := Nat.add_le_add h2 h2
        _ = D * 2 ^ 276 := by ring
    have step3 : D * (rneaN (N * 2 ^ 23) (2 ^ 23 * D * 2 ^ j) * 2 ^ j) ≤ D * 2 ^ 276 := by
      calc D * (rneaN (N * 2 ^ 23) (2 ^ 23 * D * 2 ^ j) * 2 ^ j)
          = rneaN (N * 2 ^ 23) (2 ^ 23 * D * 2 ^ j) * (D * 2 ^ j) := by ring
        _ ≤ D * 2 ^ 276 := step2
    have step4 : rneaN (N * 2 ^ 23) (2 ^ 23 * D * 2 ^ j) * 2 ^ j ≤ 2 ^ 276 :=
      Nat.le_of_mul_le_mul_left step3 hD
    calc rneaN (N * 2 ^ 23) (2 ^ 23 * D * 2 ^ j) * 2 ^ j ≤ 2 ^ 276 := step4
      _ < 2 ^ 277 := by norm_num
  refine ⟨rneaN (N * 2 ^ 23) (2 ^ 23 * D * 2 ^ j) * 2 ^ j, ?_, ?_⟩
  · rw [roundPos, if_neg (by omega), hfst, hsnd, if_pos hub]
  · have : 0 < rneaN (N * 2 ^ 23) (2 ^ 23 * D * 2 ^ j) := by
      have h23 : (0:ℕ) < 2 ^ 23 := by positivity
      omega
    positivity

/-- `usize as f32` of a nonzero `usize` is a positive finite value. -/
theorem usizeToF32_pos (n : ℕ) (h1 : 1 ≤ n) (h2 : n ≤ 2 ^ 64) :
    ∃ z : ℤ, usizeToF32 n = F32.finite z ∧ 0 < z := by
  obtain ⟨m, hm, hmpos⟩ := roundPos_pos (n * 2 ^ 149) 1 one_pos
    (by nlinarith) (by nlinarith)
  refine ⟨(m : ℤ), ?_, by exact_mod_cast hmpos⟩
  have hnum : ((n : ℤ) * 2 ^ 149) ≠ 0 := by positivity
  have hposcond : (0 < (n : ℤ) * 2 ^ 149 ∧ (0:ℤ) < 1) ∨ ((n : ℤ) * 2 ^ 149 < 0 ∧ (1:ℤ) < 0) := by
    left
    constructor
    · positivity
    · norm_num
  have habs : ((n : ℤ) * 2 ^ 149).natAbs = n * 2 ^ 149 := by
    rw [Int.natAbs_mul, Int.natAbs_pow]
    simp
  rw [usizeToF32, roundQ, if_neg hnum, if_pos hposcond, habs]
  simp only [Int.natAbs_one]
  rw [hm]

/-- `usize as f32` of zero is zero. -/
theorem usizeToF32_zero : usizeToF32 0 = F32.finite 0 := by
  simp [usizeToF32, roundQ]

/-- Dividing finite zero by a nonzero finite value gives zero. -/
theorem fDiv_zero_left (b : ℤ) (hb : b ≠ 0) :
    fDiv (F32.finite 0) (F32.finite b) = F32.finite 0 := by
  simp [fDiv, hb, roundQ]

/-- Multiplying a finite value by finite zero gives zero. -/
theorem fMul_zero_right (a : ℤ) : fMul (F32.finite a) (F32.finite 0) = F32.finite 0 := by
  simp [fMul, roundQ]

/-- Multiplying finite zero by a finite value gives zero. -/
theorem fMul_zero_left (b : ℤ) : fMul (F32.finite 0) (F32.finite b) = F32.finite 0 := by
  simp [fMul, roundQ]

/-- `1.0 - 1.0 = 0.0`. -/
theorem fSub_one_one : fSub (F32.finite (2 ^ 149)) (F32.finite (2 ^ 149)) = F32.finite 0 := by
  simp [fSub, roundQ]

/-- `ceil 0.0 = 0.0`. -/
theorem fCeil_zero : fCeil (F32.finite 0) = F32.finite 0 := by
  simp [fCeil]

/-- `(0.0 : f32) as usize = 0`. -/
theorem f32ToUsize_zero : f32ToUsize (F32.finite 0) = 0 := by
  simp [f32ToUsize]

/-- `optimal_n_hashers(0, n) = 0` for any `usize`-ranged `n ≥ 1`: the bucket
count 0 makes `m / n = 0.0`, and `ceil(0.0 * ln 2) = 0`. -/
theorem optimal_n_hashers_zero_buckets (n : ℕ) (h1 : 1 ≤ n) (h2 : n ≤ 2 ^ 64) :
    optimal_n_hashers 0 n = 0 := by
  obtain ⟨z, hz, hzpos⟩ := usizeToF32_pos n h1 h2
  rw [optimal_n_hashers, usizeToF32_zero, hz, fDiv_zero_left z hzpos.ne',
    ln2F32, fMul_zero_left, fCeil_zero, f32ToUsize_zero]

/-! ## Lemmas about the bit array and the filter operations -/

/-- Setting a bit to true never clears a true bit. -/
theorem set_true_preserves (buf : List Bool) (i k : ℕ)
    (h : buf[k]? = some true) : (buf.set i true)[k]? = some true := by
  by_cases hik : i = k
  · subst hik
    have hlt : i < buf.length := (List.getElem?_eq_some.mp h).1
    exact List.getElem?_set_eq_of_lt true hlt
  · rw [List.getElem?_set_ne hik]
    exact h

/-- The `add` loop preserves the bit-array length. -/
theorem setAll_length (l : List ℕ) : ∀ buf b : List Bool,
    setAll buf l = some b → b.length = buf.length := by
  induction l with
  | nil =>
    intro buf b h
    rw [(Option.some.inj h).symm]
  | cons i rest ih =>
    intro buf b h
    by_cases hlt : i < buf.length
    · simp only [setAll, bitSet, if_pos hlt] at h
      rw [ih (buf.set i true) b h, List.length_set]
    · simp [setAll, bitSet, if_neg hlt] at h

/-- The `add` loop succeeds when every index is in bounds. -/
theorem setAll_isSome (l : List ℕ) : ∀ buf : List Bool,
    (∀ i ∈ l, i < buf.length) → ∃ b, setAll buf l = some b := by
  induction l with
  | nil => exact fun buf _ => ⟨buf, rfl⟩
  | cons i rest ih =>
    intro buf hb
    have hlt : i < buf.length := hb i (List.mem_cons_self i rest)
    have hrest : ∀ j ∈ rest, j < (buf.set i true).length := by
      intro j hj
      rw [List.length_set]
      exact hb j (List.mem_cons_of_mem i hj)
    obtain ⟨b, hset⟩ := ih (buf.set i true) hrest
    exact ⟨b, by simp only [setAll, bitSet, if_pos hlt]; exact hset⟩

/-- The `add` loop preserves true bits. -/
theorem setAll_preserves_true (l : List ℕ) : ∀ buf b : List Bool, ∀ k : ℕ,
    setAll buf l = some b → buf[k]? = some true → b[k]? = some true := by
  induction l with
  | nil =>
    intro buf b k h hk
    rw [(Option.some.inj h).symm]
    exact hk
  | cons i rest ih =>
    intro buf b k h hk
    by_cases hlt : i < buf.length
    · simp only [setAll, bitSet, if_pos hlt] at h
      exact ih (buf.set i true) b k h (set_true_preserves buf i k hk)
    · simp [setAll, bitSet, if_neg hlt] at h

/-- After the `add` loop, every visited position holds true. -/
theorem setAll_mem_true (l : List ℕ) : ∀ buf b : List Bool,
    setAll buf l = some b → ∀ i ∈ l, b[i]? = some true := by
  induction l with
  | nil =>
    intro buf b _ i hi
    exact absurd hi (List.not_mem_nil i)
  | cons j rest ih =>
    intro buf b h i hi
    by_cases hlt : j < buf.length
    · simp only [setAll, bitSet, if_pos hlt] at h
      rcases List.mem_cons.mp hi with hij | hirest
      · subst hij
        exact setAll_preserves_true rest (buf.set i true) b i h
          (List.getElem?_set_eq_of_lt true hlt)
      · exact ih (buf.set j true) b h i hirest
    · simp [setAll, bitSet, if_neg hlt] at h

/-- The `may_contain` loop returns its accumulator when all visited bits are
true. -/
theorem readAll_eq_of_true (l : List ℕ) : ∀ (buf : List Bool) (acc : Bool),
    (∀ i ∈ l, buf[i]? = some true) → readAll buf acc l = some acc := by
  induction l with
  | nil => intro buf acc _; rfl
  | cons i rest ih =>
    intro buf acc hb
    have hi : buf[i]? = some true := hb i (List.mem_cons_self i rest)
    simp only [readAll, bitGet, hi]
    have := ih buf (acc && true) fun j hj => hb j (List.mem_cons_of_mem i hj)
    simpa using this

/-- The `may_contain` loop succeeds when every index is in bounds. -/
theorem readAll_isSome (l : List ℕ) : ∀ (buf : List Bool) (acc : Bool),
    (∀ i ∈ l, i < buf.length) → ∃ r, readAll buf acc l = some r := by
  induction l with
  | nil => exact fun buf acc _ => ⟨acc, rfl⟩
  | cons i rest ih =>
    intro buf acc hb
    have hlt : i < buf.length := hb i (List.mem_cons_self i rest)
    obtain ⟨r, hr⟩ := ih buf (acc && buf[i]) fun j hj => hb j (List.mem_cons_of_mem i hj)
    exact ⟨r, by simp only [readAll, bitGet, List.getElem?_eq_getElem hlt]; exact hr⟩

/-- Every index the generator produces is below the bit-array length. -/
theorem indexesAux_mem_lt (ds : List ℕ) : ∀ (len : ℕ) (idxs : List ℕ),
    indexesAux len ds = some idxs → ∀ i ∈ idxs, i < len := by
  induction ds with
  | nil =>
    intro len idxs h i hi
    rw [(Option.some.inj h).symm] at hi
    exact absurd hi (List.not_mem_nil i)
  | cons d rest ih =>
    intro len idxs h i hi
    by_cases hlen : len = 0
    · simp [indexesAux, hlen] at h
    · simp only [indexesAux, if_neg hlen] at h
      rcases hrec : indexesAux len rest with _ | l
      · rw [hrec] at h; exact absurd h (by simp)
      · rw [hrec] at h
        rw [(Option.some.inj h).symm] at hi
        rcases List.mem_cons.mp hi with hd | hl
        · subst hd
          exact Nat.mod_lt _ (Nat.pos_of_ne_zero hlen)
        · exact ih len l hrec i hl

/-- The index generator succeeds whenever the bit array is nonempty. -/
theorem indexesAux_isSome_of_pos (ds : List ℕ) : ∀ len : ℕ, 0 < len →
    ∃ idxs, indexesAux len ds = some idxs := by
  induction ds with
  | nil => exact fun len _ => ⟨[], rfl⟩
  | cons d rest ih =>
    intro len hlen
    obtain ⟨l, hl⟩ := ih len hlen
    exact ⟨d % len :: l, by simp only [indexesAux, if_neg hlen.ne', hl]⟩

/-- The index sequence depends only on the hashers and bit-array length. -/
theorem indexes_congr {α : Type} (F F2 : BloomFilter α) (e : α)
    (hh : F2.hashers = F.hashers) (hl : F2.buffer.length = F.buffer.length) :
    indexes F2 e = indexes F e := by
  rw [indexes, indexes, hh, hl]

/-- Elimination for a successful `add`: the computed index sequence, the
updated buffer, and the shape of the new filter. -/
theorem add_elim {α : Type} (F F2 : BloomFilter α) (e : α) (h : add F e = some F2) :
    ∃ idxs buf, indexes F e = some idxs ∧ setAll F.buffer idxs = some buf
      ∧ F2 = ⟨buf, F.size + 1, F.hashers⟩ := by
  unfold add at h
  split at h
  · exact absurd h (by simp)
  · rename_i idxs hidx
    split at h
    · exact absurd h (by simp)
    · rename_i buf hbuf
      exact ⟨idxs, buf, hidx, hbuf, (Option.some.inj h).symm⟩

/-- `may_contain` answers true when every generated position is true. -/
theorem may_contain_true_intro {α : Type} (F : BloomFilter α) (e : α)
    (idxs : List ℕ) (hidx : indexes F e = some idxs)
    (hb : ∀ i ∈ idxs, F.buffer[i]? = some true) :
    may_contain F e = some true := by
  unfold may_contain
  rw [hidx]
  exact readAll_eq_of_true idxs F.buffer true hb

/-- A successful operation preserves the hashers and bit-array length,
never decreases the size, and never clears a true bit. -/
theorem runOp_mono {α : Type} (F F2 : BloomFilter α) (op : Op α)
    (h : runOp F op = some F2) :
    F2.hashers = F.hashers ∧ F2.buffer.length = F.buffer.length
      ∧ F.size ≤ F2.size
      ∧ ∀ i : ℕ, F.buffer[i]? = some true → F2.buffer[i]? = some true := by
  cases op with
  | ins e =>
    obtain ⟨idxs, buf, _, hbuf, hF2⟩ := add_elim F F2 e h
    subst hF2
    refine ⟨rfl, setAll_length idxs F.buffer buf hbuf, Nat.le_succ _, ?_⟩
    exact fun i hi => setAll_preserves_true idxs F.buffer buf i hbuf hi
  | query e =>
    simp only [runOp] at h
    rcases hq : may_contain F e with _ | b <;> rw [hq] at h
    · exact Option.noConfusion h
    · rw [(Option.some.inj h).symm]
      exact ⟨rfl, rfl, le_refl _, fun _ hi => hi⟩

/-- `runOp_mono`, extended over a trace of operations. -/
theorem runOps_mono {α : Type} (ops : List (Op α)) : ∀ F F2 : BloomFilter α,
    runOps F ops = some F2 →
    F2.hashers = F.hashers ∧ F2.buffer.length = F.buffer.length
      ∧ F.size ≤ F2.size
      ∧ ∀ i : ℕ, F.buffer[i]? = some true → F2.buffer[i]? = some true := by
  induction ops with
  | nil =>
    intro F F2 h
    rw [(Option.some.inj h).symm]
    exact ⟨rfl, rfl, le_refl _, fun _ hi => hi⟩
  | cons op rest ih =>
    intro F F2 h
    unfold runOps at h
    split at h
    · exact absurd h (by simp)
    · rename_i F1 hop
      obtain ⟨h1, h2, h3, h4⟩ := runOp_mono F F1 op hop
      obtain ⟨g1, g2, g3, g4⟩ := ih F1 F2 h
      exact ⟨g1.trans h1, g2.trans h2, h3.trans g3, fun i hi => g4 i (h4 i hi)⟩

/-- Each successful `addAll` step adds exactly one to the size. -/
theorem addAll_size_aux {α : Type} (es : List α) : ∀ F F2 : BloomFilter α,
    addAll F es = some F2 → F2.size = F.size + es.length := by
  induction es with
  | nil =>
    intro F F2 h
    rw [(Option.some.inj h).symm]
    simp
  | cons e rest ih =>
    intro F F2 h
    unfold addAll at h
    split at h
    · exact absurd h (by simp)
    · rename_i F1 hadd
      obtain ⟨idxs, buf, _, _, hF1⟩ := add_elim F F1 e hadd
      have := ih F1 F2 h
      rw [this, hF1]
      simp
      omega

/-- Only query operations leave the filter exactly as it was. -/
theorem runOps_queries_id {α : Type} (ops : List (Op α)) : ∀ F F2 : BloomFilter α,
    (∀ op ∈ ops, ∃ x, op = Op.query x) → runOps F ops = some F2 → F2 = F := by
  induction ops with
  | nil => intro F F2 _ h; exact (Option.some.inj h).symm
  | cons op rest ih =>
    intro F F2 hq h
    obtain ⟨x, hx⟩ := hq op (List.mem_cons_self op rest)
    subst hx
    simp only [runOps, runOp] at h
    rcases hmc : may_contain F x with _ | b <;> rw [hmc] at h
    · exact Option.noConfusion h
    · exact ih F F2 (fun op2 hop => hq op2 (List.mem_cons_of_mem _ hop)) h

/-! ## Example data for the witnesses -/

/-- A concrete filter over `ℕ`: 4 buckets, empty, two hashers. -/
def exF : BloomFilter ℕ := ⟨List.replicate 4 false, 0, [fun x => x, fun x => x + 1]⟩

/-- `exF` after `add 2` (indexes 2 and 3 are set). -/
def exF1 : BloomFilter ℕ := ⟨[false, false, true, true], 1, [fun x => x, fun x => x + 1]⟩

/-- `exF1` after `add 5` and a query (indexes 1 and 2 are also set). -/
def exF2 : BloomFilter ℕ := ⟨[false, true, true, true], 2, [fun x => x, fun x => x + 1]⟩

/-- `new_with_size(3, 4)` with the seeded hasher family `i ↦ (x ↦ i + x)`. -/
def exC8F : BloomFilter ℕ := new_with_size 3 4 (fun i x => i + x)

/-- `exC8F` after inserting the element 5 three times. -/
def exC8F2 : BloomFilter ℕ := ⟨[false, true, false, false], 3, [fun x => 0 + x]⟩

/-- A one-bucket, one-hasher, empty filter. -/
def exC5F : BloomFilter ℕ := ⟨[false], 0, [fun x => x]⟩

/-! ## The claims -/

/-- **C1**: No false negatives: for every element `e` passed to `add` on a
filter, every later `may_contain(e)` — after any further successful inserts
or queries — returns `true`. -/
theorem claim_C1_no_false_negatives {α : Type} (F F1 F2 : BloomFilter α) (e : α)
    (ops : List (Op α)) (h1 : add F e = some F1) (h2 : runOps F1 ops = some F2) :
    may_contain F2 e = some true := by
  obtain ⟨idxs, buf, hidx, hbuf, hF1⟩ := add_elim F F1 e h1
  obtain ⟨g1, g2, _, g4⟩ := runOps_mono ops F1 F2 h2
  have hF1h : F1.hashers = F.hashers := by rw [hF1]
  have hF1l : F1.buffer.length = F.buffer.length := by
    rw [hF1]
    exact setAll_length idxs F.buffer buf hbuf
  have hidx2 : indexes F2 e = some idxs := by
    rw [indexes_congr F F2 e (g1.trans hF1h) (g2.trans hF1l), hidx]
  refine may_contain_true_intro F2 e idxs hidx2 ?_
  intro i hi
  apply g4
  rw [hF1]
  exact setAll_mem_true idxs F.buffer buf hbuf i hi

/-- Witness for C1 on concrete data: insert 2, then insert 5 and run a
query; 2 is still reported present. -/
theorem claim_C1_witness : may_contain exF2 2 = some true :=
  claim_C1_no_false_negatives exF exF1 exF2 2 [Op.ins 5, Op.query 0] rfl rfl

/-- **C2** (amended): invalid sizing parameters are not rejected as an
explicit result/error value: whenever the computed hasher count is below
the `Vec` capacity-overflow threshold, both constructors succeed and
return a plain filter — degenerate for invalid inputs — with element
count zero and exactly the computed bit-array length.  (Above the
threshold construction dies in a "capacity overflow" panic, which is a
crash, not the result/error value the spec requires; see the
counterexample.) -/
theorem claim_C2_no_rejection {α : Type} (n sz : ℕ) (mk : ℕ → α → ℕ)
    (fln : F32 → F32) (fpowf : F32 → F32 → F32) (p : F32)
    (hk1 : optimal_n_hashers sz n * 16 ≤ 2 ^ 63 - 1)
    (hk2 : optimal_n_hashers (min_n_buckets fln fpowf n p) n * 16 ≤ 2 ^ 63 - 1) :
    new_with_size_checked n sz mk = some (new_with_size n sz mk)
      ∧ (new_with_size n sz mk : BloomFilter α).buffer.length = sz
      ∧ (new_with_size n sz mk : BloomFilter α).size = 0
      ∧ new_with_fp_checked fln fpowf n p mk = some (new_with_fp fln fpowf n p mk)
      ∧ (new_with_fp fln fpowf n p mk : BloomFilter α).buffer.length
          = min_n_buckets fln fpowf n p
      ∧ (new_with_fp fln fpowf n p mk : BloomFilter α).size = 0 := by
  refine ⟨?_, ?_, rfl, ?_, ?_, rfl⟩
  · simp only [new_with_size_checked, if_pos hk1]
  · simp [new_with_size]
  · simp only [new_with_fp_checked, if_pos hk2]
  · simp [new_with_fp]

/-- Witness for C2 on concrete data: the (invalid) input `(1, 0)` is below
the allocation threshold and construction succeeds. -/
theorem claim_C2_witness :
    new_with_size_checked (α := ℕ) 1 0 (fun _ _ => 0)
        = some (new_with_size (α := ℕ) 1 0 (fun _ _ => 0))
      ∧ (new_with_size (α := ℕ) 1 0 (fun _ _ => 0)).buffer.length = 0
      ∧ (new_with_size (α := ℕ) 1 0 (fun _ _ => 0)).size = 0
      ∧ new_with_fp_checked (α := ℕ) (fun _ => F32.nan) (fun _ _ => F32.nan) 1 F32.nan
          (fun _ _ => 0)
        = some (new_with_fp (α := ℕ) (fun _ => F32.nan) (fun _ _ => F32.nan) 1 F32.nan
          (fun _ _ => 0))
      ∧ (new_with_fp (α := ℕ) (fun _ => F32.nan) (fun _ _ => F32.nan) 1 F32.nan
          (fun _ _ => 0)).buffer.length
        = min_n_buckets (fun _ => F32.nan) (fun _ _ => F32.nan) 1 F32.nan
      ∧ (new_with_fp (α := ℕ) (fun _ => F32.nan) (fun _ _ => F32.nan) 1 F32.nan
          (fun _ _ => 0)).size = 0 :=
  claim_C2_no_rejection 1 0 (fun _ _ => 0) (fun _ => F32.nan) (fun _ _ => F32.nan)
    F32.nan (by decide) (by decide)

/-- Counterexample to C2 as stated: neither kind of invalid input produces
the explicit result/error value the claim asserts.  `new_with_size(1, 0)`
(zero bit-array length) is accepted silently: construction succeeds and
returns the degenerate filter with empty bit array and no hashers.
`new_with_size(0, 5)` (zero expected elements) computes
`(inf as usize) = usize::MAX` hashers and dies in the `Vec`
"capacity overflow" panic (`none`) — a crash, not an error value. -/
theorem claim_C2_counterexample :
    new_with_size_checked (α := ℕ) 1 0 (fun _ _ => 0) = some ⟨[], 0, []⟩
      ∧ new_with_size_checked (α := ℕ) 0 5 (fun _ _ => 0) = none :=
  ⟨rfl, rfl⟩

/-- **C3** (amended): both constructors use the *same* rounding policy for
the hash count: each takes the ceiling of `(m / n) * ln 2` (the body of
`optimal_n_hashers`); the fixed-size constructor does not truncate. -/
theorem claim_C3_both_constructors_ceil {α : Type} (n m : ℕ) (mk : ℕ → α → ℕ)
    (fln : F32 → F32) (fpowf : F32 → F32 → F32) (p : F32) :
    (new_with_size n m mk : BloomFilter α).hashers.length
        = f32ToUsize (fCeil (fMul (fDiv (usizeToF32 m) (usizeToF32 n)) ln2F32))
      ∧ (new_with_fp fln fpowf n p mk : BloomFilter α).hashers.length
        = f32ToUsize (fCeil (fMul (fDiv (usizeToF32 (min_n_buckets fln fpowf n p))
            (usizeToF32 n)) ln2F32)) := by
  constructor
  · simp [new_with_size, optimal_n_hashers]
  · simp [new_with_fp, optimal_n_hashers]

/-- Counterexample to C3 as stated: at `(bucket_count, expected_elements) =
(100, 3)` the fixed-size constructor produces `24 = ceil(23.1049…)` hashers,
not the truncation `23` the spec ascribes to it. -/
theorem claim_C3_counterexample :
    (new_with_size (α := ℕ) 3 100 (fun _ _ => 0)).hashers.length = 24
      ∧ specTruncHashCount 100 3 = 23 := by
  constructor <;> decide

/-- **C4**: evaluation at the failing input: `new_with_size(1, 100)` has a
bit array of length 100 (the modulus used by `indexes`), but `buckets()`
returns the `BitVec` *capacity* 128 (the length rounded up to whole 32-bit
storage blocks), not the length. -/
theorem claim_C4_buckets_returns_capacity :
    buckets (new_with_size (α := ℕ) 1 100 (fun _ _ => 0)) = 128
      ∧ (new_with_size (α := ℕ) 1 100 (fun _ _ => 0)).buffer.length = 100
      ∧ (128 : ℕ) ≠ 100 := by
  refine ⟨by decide, by decide, by decide⟩

/-- **C5** (amended): for every filter with at least one hasher and at
least one bucket — as every filter built from valid sizing parameters has —
`fp_rate()` returns exactly `0.0` while `size() = 0`.  (`fexp`/`fpowf` are
any libm functions satisfying the IEEE/C99-pinned identities
`exp(±0) = 1` and `pow(+0, y) = +0` for `y > 0`; the bounds on the lengths
are the `usize` range.) -/
theorem claim_C5_fp_rate_empty {α : Type} (fexp : F32 → F32) (fpowf : F32 → F32 → F32)
    (hexp : fexp (F32.finite 0) = F32.finite (2 ^ 149))
    (hpow : ∀ z : ℤ, 0 < z → fpowf (F32.finite 0) (F32.finite z) = F32.finite 0)
    (F : BloomFilter α) (hs : F.size = 0)
    (hk1 : 1 ≤ F.hashers.length) (hk2 : F.hashers.length ≤ 2 ^ 64)
    (hl1 : 1 ≤ F.buffer.length) (hl2 : F.buffer.length ≤ 2 ^ 58) :
    fp_rate fexp fpowf F = F32.finite 0 := by
  obtain ⟨zk, hzk, hzkpos⟩ := usizeToF32_pos F.hashers.length hk1 hk2
  have hcap1 : 1 ≤ bitVecCapacity F.buffer.length := by
    show 1 ≤ ((F.buffer.length + 31) / 32) * 32
    have h32 : 1 ≤ (F.buffer.length + 31) / 32 :=
      (Nat.one_le_div_iff (by norm_num)).mpr (by omega)
    calc (1:ℕ) ≤ 1 * 32 := by norm_num
      _ ≤ ((F.buffer.length + 31) / 32) * 32 := Nat.mul_le_mul_right _ h32
  have hcap2 : bitVecCapacity F.buffer.length ≤ 2 ^ 64 := by
    have hd : ((F.buffer.length + 31) / 32) * 32 ≤ F.buffer.length + 31 :=
      Nat.div_mul_le_self _ _
    have hbig : (2:ℕ) ^ 58 + 31 ≤ 2 ^ 64 := by norm_num
    show ((F.buffer.length + 31) / 32) * 32 ≤ 2 ^ 64
    omega
  obtain ⟨zm, hzm, hzmpos⟩ := usizeToF32_pos (bitVecCapacity F.buffer.length) hcap1 hcap2
  rw [fp_rate, false_positive_rate, buckets, n_hashers, hs, usizeToF32_zero, hzk, hzm]
  rw [show fNeg (F32.finite zk) = F32.finite (-zk) from rfl]
  rw [fMul_zero_right, fDiv_zero_left zm hzmpos.ne', hexp, fSub_one_one, hpow zk hzkpos]

/-- Witness for C5 on concrete data: a one-bucket one-hasher empty filter
has `fp_rate = 0.0` (instantiating the libm parameters with the specimen
functions). -/
theorem claim_C5_witness : fp_rate expSpecimen powfSpecimen exC5F = F32.finite 0 :=
  claim_C5_fp_rate_empty expSpecimen powfSpecimen (by decide)
    (fun z hz => by
      simp only [powfSpecimen]
      rw [if_neg hz.ne']
      simp [hz])
    exC5F rfl (by decide) (by decide) (by decide) (by decide)

/-- Counterexample to C5 as stated: the freshly constructed degenerate
filter `new_with_size(1, 0)` has `size() = 0` but `fp_rate()` is `1.0`
(`NaN.powf(0.0) = 1.0` after the division `0.0 / 0.0`), not `0.0`. -/
theorem claim_C5_counterexample :
    fp_rate expSpecimen powfSpecimen (new_with_size (α := ℕ) 1 0 (fun _ _ => 0))
        = F32.finite (2 ^ 149)
      ∧ F32.finite ((2 : ℤ) ^ 149) ≠ F32.finite 0 := by
  constructor <;> decide

/-- **C6**: for every filter with bit-array length ≥ 1, every index the
generator produces is in `[0, length)`, and `add` and `may_contain` are
total (no panic: the `unwrap` in `may_contain` and the `set` in `add`
always succeed), for every element. -/
theorem claim_C6_totality {α : Type} (F : BloomFilter α) (e : α)
    (h : 1 ≤ F.buffer.length) :
    (∃ idxs, indexes F e = some idxs ∧ ∀ i ∈ idxs, i < F.buffer.length)
      ∧ (add F e).isSome = true ∧ (may_contain F e).isSome = true := by
  obtain ⟨idxs, hidx⟩ :=
    indexesAux_isSome_of_pos (F.hashers.map fun hf => hf e) F.buffer.length h
  have hidx2 : indexes F e = some idxs := hidx
  have hlt := indexesAux_mem_lt _ _ _ hidx
  refine ⟨⟨idxs, hidx2, hlt⟩, ?_, ?_⟩
  · obtain ⟨b, hb⟩ := setAll_isSome idxs F.buffer hlt
    simp [add, hidx2, hb]
  · obtain ⟨r, hr⟩ := readAll_isSome idxs F.buffer true hlt
    simp [may_contain, hidx2, hr]

/-- Witness for C6 on concrete data. -/
theorem claim_C6_witness :
    (∃ idxs, indexes exF 7 = some idxs ∧ ∀ i ∈ idxs, i < exF.buffer.length)
      ∧ (add exF 7).isSome = true ∧ (may_contain exF 7).isSome = true :=
  claim_C6_totality exF 7 (by decide)

/-- **C7**: determinism and purity of queries: any successful trace of pure
queries leaves the filter exactly unchanged, so two `may_contain(e)` calls
with no intervening insert return the same boolean. -/
theorem claim_C7_query_determinism {α : Type} (F F2 : BloomFilter α)
    (ops : List (Op α)) (e : α)
    (hq : ∀ op ∈ ops, ∃ x, op = Op.query x) (h : runOps F ops = some F2) :
    F2 = F ∧ may_contain F2 e = may_contain F e := by
  have hFF := runOps_queries_id ops F F2 hq h
  exact ⟨hFF, by rw [hFF]⟩

/-- Witness for C7 on concrete data: two queries in between do not change
the filter or the answer. -/
theorem claim_C7_witness : exF = exF ∧ may_contain exF 3 = may_contain exF 3 :=
  claim_C7_query_determinism exF exF [Op.query 1, Op.query 9] 3
    (by
      intro op hop
      rcases List.mem_cons.mp hop with h1 | hop2
      · exact ⟨1, h1⟩
      · rcases List.mem_cons.mp hop2 with h2 | hnil
        · exact ⟨9, h2⟩
        · exact absurd hnil (List.not_mem_nil op))
    rfl

/-- **C8**: size tracking: after `n` successful `add` calls on a filter
with `size = 0` (as freshly constructed), with any elements including
duplicates, `size()` returns `n`. -/
theorem claim_C8_size_tracking {α : Type} (F F2 : BloomFilter α) (es : List α)
    (h0 : F.size = 0) (h : addAll F es = some F2) : F2.size = es.length := by
  rw [addAll_size_aux es F F2 h, h0, Nat.zero_add]

/-- Witness for C8 on concrete data: inserting the same element three times
into a fresh `new_with_size(3, 4)` filter gives `size() = 3`. -/
theorem claim_C8_witness : exC8F2.size = [5, 5, 5].length :=
  claim_C8_size_tracking exC8F exC8F2 [5, 5, 5] rfl rfl

/-- **C9**: monotonicity invariants: every successful operation (insert or
query) preserves true bits, never decreases the element count, and leaves
the bit-array length and the hasher set unchanged. -/
theorem claim_C9_monotone {α : Type} (F F2 : BloomFilter α) (op : Op α)
    (h : runOp F op = some F2) :
    (∀ i : ℕ, F.buffer[i]? = some true → F2.buffer[i]? = some true)
      ∧ F.size ≤ F2.size ∧ F2.buffer.length = F.buffer.length
      ∧ F2.hashers = F.hashers := by
  obtain ⟨h1, h2, h3, h4⟩ := runOp_mono F F2 op h
  exact ⟨h4, h3, h2, h1⟩

/-- Witness for C9 on concrete data. -/
theorem claim_C9_witness :
    (∀ i : ℕ, exF.buffer[i]? = some true → exF1.buffer[i]? = some true)
      ∧ exF.size ≤ exF1.size ∧ exF1.buffer.length = exF.buffer.length
      ∧ exF1.hashers = exF.hashers :=
  claim_C9_monotone exF exF1 (Op.ins 2) rfl

/-- **C10**: a filter constructed with an empty hasher set — as
`new_with_size(n, 0)` with `usize`-ranged `n ≥ 1` produces, since
`optimal_n_hashers(0, n) = 0` — answers `may_contain = true` for every
element (the conjunction over zero indexes is vacuous), and `add` still
succeeds, only incrementing the element count. -/
theorem claim_C10_empty_hashers {α : Type} (n : ℕ) (mk : ℕ → α → ℕ) (e : α)
    (h1 : 1 ≤ n) (h2 : n ≤ 2 ^ 64) :
    (new_with_size n 0 mk : BloomFilter α).hashers = []
      ∧ may_contain (new_with_size n 0 mk) e = some true
      ∧ add (new_with_size n 0 mk) e
          = some ⟨(new_with_size n 0 mk : BloomFilter α).buffer,
              (new_with_size n 0 mk : BloomFilter α).size + 1,
              (new_with_size n 0 mk : BloomFilter α).hashers⟩ := by
  have hk := optimal_n_hashers_zero_buckets n h1 h2
  have hh : (new_with_size (α := α) n 0 mk).hashers = [] := by
    simp [new_with_size, hk]
  have hidx : indexes (new_with_size (α := α) n 0 mk) e = some [] := by
    rw [indexes, hh]
    rfl
  refine ⟨hh, ?_, ?_⟩
  · simp [may_contain, hidx, readAll]
  · simp [add, hidx, setAll]

/-- Witness for C10 on concrete data: `new_with_size(1, 0)`. -/
theorem claim_C10_witness :
    (new_with_size (α := ℕ) 1 0 (fun _ _ => 0)).hashers = []
      ∧ may_contain (new_with_size (α := ℕ) 1 0 (fun _ _ => 0)) 42 = some true
      ∧ add (new_with_size (α := ℕ) 1 0 (fun _ _ => 0)) 42
          = some ⟨(new_with_size (α := ℕ) 1 0 (fun _ _ => 0)).buffer,
              (new_with_size (α := ℕ) 1 0 (fun _ _ => 0)).size + 1,
              (new_with_size (α := ℕ) 1 0 (fun _ _ => 0)).hashers⟩ :=
  claim_C10_empty_hashers 1 (fun _ _ => 0) 42 (by decide) (by decide)

end Bloom
